import Mathlib

/-!
Shallow embedding of `src/annotation.py` from the `thumos-util` repository.

Conventions of the embedding:
* Python `Annotation` namedtuples become a Lean structure; frame indices are
  natural numbers (frames index video time starting at 0), the real-valued
  seconds/fps fields become rationals.
* The annotation store (a Python dict mapping filenames to lists) becomes an
  association list `List (String × List Annotation)`; dict iteration order is
  the list order.
* Python `sorted` with a `(start_frame, end_frame)` key is a stable sort by
  the lexicographic key order; it is embedded as a stable insertion sort with
  the same order (stable sorts for a fixed total preorder agree).
* Raised exceptions become `Except String` / `Option` results.
* `numpy` float statistics are idealised over `ℚ` / `ℝ` (the standard
  deviation is the real square root of the population variance).
-/

deriving instance DecidableEq for Except

structure Annotation where
  filename : String
  start_frame : Nat
  end_frame : Nat
  start_seconds : Rat
  end_seconds : Rat
  frames_per_second : Rat
  category : String
deriving DecidableEq

abbrev Store := List (String × List Annotation)

/-- Helper to build an annotation record whose seconds/fps fields are
irrelevant (they are never read by the functions under verification). -/
def mkAnn (fn : String) (s e : Nat) (c : String) : Annotation :=
  { filename := fn, start_frame := s, end_frame := e, start_seconds := 0,
    end_seconds := 0, frames_per_second := 0, category := c }

/-- Embedding of `filter_annotations_by_category` (src/annotation.py:42-69):
keep, per file, the annotations whose category equals the target and drop
files whose filtered list is empty. -/
def filter_annotations_by_category (annotations : Store) (category : String) :
    Store :=
  annotations.filterMap (fun p =>
    if (p.2.filter (fun x => x.category == category)).isEmpty then none
    else some (p.1, p.2.filter (fun x => x.category == category)))

/-- One step of the grouping loop of `load_annotations_json`
(src/annotation.py:31-33): `annotations[annotation.filename].append(annotation)`
on a `defaultdict(list)`. -/
def addToStore (S : Store) (a : Annotation) : Store :=
  if S.any (fun p => p.1 == a.filename) then
    S.map (fun p => if p.1 == a.filename then (p.1, p.2 ++ [a]) else p)
  else S ++ [(a.filename, [a])]

/-- Embedding of `load_annotations_json` (src/annotation.py:14-39) after the
JSON file has been decoded into a flat list of records (file IO is out of
scope): group by filename, then optionally filter by category, raising
(`.error`) when the filtered store is empty. -/
def load_annotations_json (annotations_list : List Annotation)
    (filter_category : Option String) : Except String Store :=
  let annotations := annotations_list.foldl addToStore []
  match filter_category with
  | none => Except.ok annotations
  | some c =>
    let filtered := filter_annotations_by_category annotations c
    if filtered.isEmpty then
      Except.error "No annotations found with category."
    else Except.ok filtered

/-- Embedding of `get_durations` (src/annotation.py:72-87): the flat list of
`end_frame - start_frame + 1` over all files (dict order) and, within a file,
annotation order. Durations are integers (Python would produce a negative
number when `end_frame < start_frame`). -/
def get_durations (annotations : Store) : List Int :=
  annotations.flatMap (fun p =>
    p.2.map (fun a => (a.end_frame : Int) - (a.start_frame : Int) + 1))

/-- Lexicographic order on the `(start_frame, end_frame)` sort key used by
`compute_min_background_duration` (src/annotation.py:119-120). -/
def annLe (a b : Annotation) : Prop :=
  a.start_frame < b.start_frame ∨
    (a.start_frame = b.start_frame ∧ a.end_frame ≤ b.end_frame)

instance : DecidableRel annLe := fun a b => by
  unfold annLe; exact inferInstance

instance : IsTotal Annotation annLe :=
  ⟨fun a b => by unfold annLe; omega⟩

instance : IsTrans Annotation annLe :=
  ⟨fun a b c => by unfold annLe; omega⟩

/-- Embedding of `sorted(annotations, key=lambda x: (x.start_frame,
x.end_frame))`: a stable sort by the lexicographic key order. -/
def sortAnnotations (anns : List Annotation) : List Annotation :=
  anns.insertionSort annLe

/-- Differences `next.start_frame - previous.end_frame` over adjacent pairs of
a list, as integers (src/annotation.py:121-125). -/
def adjacentGaps : List Annotation → List Int
  | x :: y :: rest =>
    ((y.start_frame : Int) - (x.end_frame : Int)) :: adjacentGaps (y :: rest)
  | _ => []

/-- Leading gap followed by the adjacent gaps of the sorted annotation list of
one file; `none` models the `IndexError` Python raises on
`sorted_annotations[0]` when the file has no annotations. -/
def fileGaps (anns : List Annotation) : Option (List Int) :=
  match sortAnnotations anns with
  | [] => none
  | a :: rest => some ((a.start_frame : Int) :: adjacentGaps (a :: rest))

/-- Embedding of `compute_min_background_duration` (src/annotation.py:90-126):
fold `min` over every file's leading gap and adjacent gaps, starting from
`float('inf')` (modelled by `⊤ : WithTop ℤ`). -/
def compute_min_background_duration (annotations : Store) :
    Option (WithTop Int) :=
  annotations.foldlM
    (fun acc p => (fileGaps p.2).map (fun gaps =>
      gaps.foldl (fun m g => min m ((g : Int) : WithTop Int)) acc))
    (⊤ : WithTop Int)

/-- Total variant of `fileGaps` (empty list for an annotation-free file), used
to state what the gap values of one file are. -/
def leadingAndAdjacentGaps (anns : List Annotation) : List Int :=
  match sortAnnotations anns with
  | [] => []
  | a :: rest => (a.start_frame : Int) :: adjacentGaps (a :: rest)

/-- All gap values the background-duration sweep inspects, across all files. -/
def allGaps (S : Store) : List Int :=
  S.flatMap (fun p => leadingAndAdjacentGaps p.2)

/-- Arithmetic mean of a list of integers, over `ℚ` (numpy `ndarray.mean`). -/
def npMean (l : List Int) : Rat := (l.sum : Rat) / (l.length : Rat)

/-- Population variance of a list of integers, over `ℚ` (the square of numpy
`ndarray.std`, whose default `ddof` is 0). -/
def npVar (l : List Int) : Rat :=
  ((l.map (fun (d : Int) => ((d : Rat) - npMean l) ^ 2)).sum) / (l.length : Rat)

/-- Embedding of `compute_duration_mean_std` (src/annotation.py:129-138):
the mean and the population standard deviation of the duration list. -/
noncomputable def compute_duration_mean_std (annotations : Store) :
    Rat × Real :=
  (npMean (get_durations annotations),
   Real.sqrt ((npVar (get_durations annotations) : Rat) : Real))

/-- Embedding of the numpy slice assignment `v[start:end + 1] = 1` on a
vector `v` with non-negative bounds: indices in `[s, e]` that exist in the
vector become 1, everything else is unchanged (out-of-range indices are
silently dropped, as numpy basic slicing does). -/
def setSlice (v : List Nat) (s e : Nat) : List Nat :=
  v.mapIdx (fun i x => if s ≤ i ∧ i ≤ e then 1 else x)

/-- Embedding of `annotations_to_frame_labels` (src/annotation.py:141-163):
raise (`.error`) when the input spans more than one filename or more than one
category, otherwise start from a zero vector of length `num_frames` and mark
each annotation's `[start_frame, end_frame]` slice with ones. -/
def annotations_to_frame_labels (anns : List Annotation) (num_frames : Nat) :
    Except String (List Nat) :=
  if 1 < (anns.map (fun a => a.filename)).dedup.length then
    Except.error "Annotations should be for at most one filename."
  else if 1 < (anns.map (fun a => a.category)).dedup.length then
    Except.error "Annotations should be for at most one category."
  else
    Except.ok (anns.foldl (fun v a => setSlice v a.start_frame a.end_frame)
      (List.replicate num_frames 0))

/-- Specification predicate: frame `i` lies inside some annotation of the
list (inclusive bounds). -/
def frameCovered (anns : List Annotation) (i : Nat) : Prop :=
  ∃ a ∈ anns, a.start_frame ≤ i ∧ i ≤ a.end_frame

instance (anns : List Annotation) (i : Nat) :
    Decidable (frameCovered anns i) := by
  unfold frameCovered; exact inferInstance

/-- Number of frames below `n` covered by some annotation of the list. -/
def coveredCount (anns : List Annotation) (n : Nat) : Nat :=
  (List.range n).countP (fun i => decide (frameCovered anns i))

/-- Per-file loop of `compute_priors` (src/annotation.py:183-187): look each
file's frame count up (`none` models the Python `KeyError`) and rasterize its
annotations (propagating the rasterizer's error). -/
def rasterizeFiles (frame_counts : List (String × Nat)) :
    Store → Option (List (List Nat))
  | [] => some []
  | p :: rest => do
    let n ← frame_counts.lookup p.1
    let v ← (annotations_to_frame_labels p.2 n).toOption
    let vs ← rasterizeFiles frame_counts rest
    pure (v :: vs)

/-- Value model for the entries of the float64 array `compute_priors` fills:
an exact rational, numpy `nan`, or numpy `+inf` (the numerator is a count, so
a negative infinity cannot arise). -/
inductive NpFloat where
  | val : Rat → NpFloat
  | nan : NpFloat
  | inf : NpFloat
deriving DecidableEq

/-- Numpy true division of a nonnegative integer numerator by an integer
denominator: numpy emits a warning but does not raise on a zero denominator,
producing `nan` for `0 / 0` and `+inf` otherwise. -/
def npDivNat (num den : Nat) : NpFloat :=
  if den = 0 then (if num = 0 then NpFloat.nan else NpFloat.inf)
  else NpFloat.val ((num : Rat) / (den : Rat))

/-- Body of one iteration of the `compute_priors` loop: the prior of a single
category. When the category-filtered store is empty, `num_category_frames` is
the plain Python int `0` (from `sum([])`) and a zero `num_total_frames` makes
the division raise `ZeroDivisionError` (modelled by `none`); when matching
files exist, the numerator is a numpy integer and numpy true division never
raises (`npDivNat`). Errors of `rasterizeFiles` propagate. -/
def priorFor (training_annotations : Store)
    (frame_counts : List (String × Nat)) (num_total_frames : Nat)
    (category : String) : Option NpFloat :=
  (rasterizeFiles frame_counts
    (filter_annotations_by_category training_annotations category)).bind
    (fun seqs =>
    if seqs.isEmpty then
      if num_total_frames = 0 then none
      else some (NpFloat.val ((0 : Rat) / ((num_total_frames : Nat) : Rat)))
    else some (npDivNat ((seqs.map (fun v => v.sum)).sum) num_total_frames))

/-- Loop of `compute_priors` over `class_list`, in order. -/
def priorsLoop (training_annotations : Store)
    (frame_counts : List (String × Nat)) (num_total_frames : Nat) :
    List String → Option (List NpFloat)
  | [] => some []
  | c :: rest => do
    let p ← priorFor training_annotations frame_counts num_total_frames c
    let ps ← priorsLoop training_annotations frame_counts num_total_frames rest
    pure (p :: ps)

/-- Embedding of `compute_priors` (src/annotation.py:166-191). -/
def compute_priors (training_annotations : Store) (class_list : List String)
    (frame_counts : List (String × Nat)) : Option (List NpFloat) :=
  priorsLoop training_annotations frame_counts
    ((frame_counts.map (fun p => p.2)).sum) class_list

/-- Embedding of `in_annotation` (src/annotation.py:194-195). -/
def in_annotation (a : Annotation) (frame_index : Nat) : Bool :=
  decide (a.start_frame ≤ frame_index) && decide (frame_index ≤ a.end_frame)

/-- Embedding of `frames_to_consider` inside `compute_overlap_counts`
(src/annotation.py:225-227): `sorted(list(set(starts + ends)))`. -/
def frames_to_consider (anns : List Annotation) : List Nat :=
  ((anns.map (fun a => a.start_frame)) ++
    (anns.map (fun a => a.end_frame))).dedup.insertionSort (· ≤ ·)

/-- Recordings appended by the sweep of `compute_overlap_counts`
(src/annotation.py:228-236): per file and per candidate frame, the pair of
the active category set and the active instance set. -/
def overlap_recordings (annotations : Store) :
    List (Finset String × Finset (String × Nat × Nat)) :=
  annotations.flatMap (fun p =>
    (frames_to_consider p.2).map (fun frame =>
      let current := p.2.filter (fun a => in_annotation a frame)
      ((current.map (fun a => a.category)).toFinset,
       (current.map (fun a => (a.category, a.start_frame, a.end_frame))).toFinset)))

/-- Embedding of `compute_overlap_counts` (src/annotation.py:204-240), read as
the map it returns: the count of a category set is the number of recordings
made under that key (`len` of the appended list; a key never recorded has
count 0). -/
def compute_overlap_counts (annotations : Store)
    (categories : Finset String) : Nat :=
  (overlap_recordings annotations).countP (fun r => decide (r.1 = categories))

/-! ### Shared lemmas -/

theorem not_isEmpty_of_ne_nil {α : Type} {l : List α} (h : l ≠ []) :
    ¬(l.isEmpty = true) :=
  fun habs => h (List.isEmpty_iff.mp habs)

theorem mem_filter_annotations_by_category {S : Store} {c fn : String}
    {m : List Annotation} :
    (fn, m) ∈ filter_annotations_by_category S c ↔
      ∃ l, (fn, l) ∈ S ∧ m = l.filter (fun a => a.category == c) ∧ m ≠ [] := by
  unfold filter_annotations_by_category
  rw [List.mem_filterMap]
  constructor
  · rintro ⟨⟨pfn, panns⟩, hp, hsome⟩
    dsimp only at hsome
    by_cases he : (panns.filter (fun a => a.category == c)).isEmpty = true
    · rw [if_pos he] at hsome
      exact absurd hsome (by simp)
    · rw [if_neg he] at hsome
      simp only [Option.some.injEq, Prod.mk.injEq] at hsome
      obtain ⟨rfl, rfl⟩ := hsome
      exact ⟨panns, hp, rfl, fun hnil => he (List.isEmpty_iff.mpr hnil)⟩
  · rintro ⟨l, hl, rfl, hne⟩
    refine ⟨(fn, l), hl, ?_⟩
    show (if (l.filter (fun a => a.category == c)).isEmpty = true then none
      else some (fn, l.filter (fun a => a.category == c))) =
        some (fn, l.filter (fun a => a.category == c))
    rw [if_neg (not_isEmpty_of_ne_nil hne)]

theorem filter_annotations_by_category_eq_self {T : Store} {c : String}
    (h : ∀ q ∈ T, q.2.filter (fun a => a.category == c) = q.2 ∧ q.2 ≠ []) :
    filter_annotations_by_category T c = T := by
  induction T with
  | nil => rfl
  | cons p rest ih =>
    have hp := h p (List.mem_cons_self p rest)
    have hrest := ih (fun q hq => h q (List.mem_cons_of_mem p hq))
    have hne : p.2.filter (fun a => a.category == c) ≠ [] := by
      rw [hp.1]; exact hp.2
    have happ : (if (p.2.filter (fun x => x.category == c)).isEmpty = true
        then none
        else some (p.1, p.2.filter (fun x => x.category == c))) =
          some (p.1, p.2) := by
      rw [if_neg (not_isEmpty_of_ne_nil hne), hp.1]
    unfold filter_annotations_by_category at hrest ⊢
    simp only [List.filterMap_cons, happ, Prod.mk.eta, hrest]

theorem length_dedup_le_one_iff {α : Type} [DecidableEq α] {l : List α} :
    l.dedup.length ≤ 1 ↔ ∀ x ∈ l, ∀ y ∈ l, x = y := by
  constructor
  · intro h x hx y hy
    have hx' : x ∈ l.dedup := List.mem_dedup.mpr hx
    have hy' : y ∈ l.dedup := List.mem_dedup.mpr hy
    cases hd : l.dedup with
    | nil => rw [hd] at hx'; exact absurd hx' (List.not_mem_nil x)
    | cons z t =>
      rw [hd] at hx' hy' h
      have ht : t = [] := by
        simp only [List.length_cons] at h
        exact List.length_eq_zero.mp (by omega)
      subst ht
      obtain rfl : x = z := by simpa using hx'
      obtain rfl : y = x := by simpa using hy'
      rfl
  · intro h
    cases hl : l.dedup with
    | nil => simp
    | cons z t =>
      cases t with
      | nil => simp
      | cons w t' =>
        exfalso
        have hnd : l.dedup.Nodup := List.nodup_dedup l
        rw [hl] at hnd
        have hzw : z ≠ w := by
          rcases List.nodup_cons.mp hnd with ⟨hz, _⟩
          exact fun he => hz (he ▸ List.mem_cons_self w t')
        have hz : z ∈ l := List.mem_dedup.mp (by rw [hl]; exact List.mem_cons_self z (w :: t'))
        have hw : w ∈ l := List.mem_dedup.mp
          (by rw [hl]; exact List.mem_cons_of_mem z (List.mem_cons_self w t'))
        exact hzw (h z hz w hw)

theorem one_lt_length_dedup_iff {α : Type} [DecidableEq α] {l : List α} :
    1 < l.dedup.length ↔ ∃ x ∈ l, ∃ y ∈ l, x ≠ y := by
  rw [← not_le, length_dedup_le_one_iff]
  push_neg
  rfl

theorem one_lt_length_dedup_map_iff {α β : Type} [DecidableEq β]
    {l : List α} {f : α → β} :
    1 < (l.map f).dedup.length ↔ ∃ a ∈ l, ∃ b ∈ l, f a ≠ f b := by
  rw [one_lt_length_dedup_iff]
  constructor
  · rintro ⟨x, hx, y, hy, hxy⟩
    obtain ⟨a, ha, rfl⟩ := List.mem_map.mp hx
    obtain ⟨b, hb, rfl⟩ := List.mem_map.mp hy
    exact ⟨a, ha, b, hb, hxy⟩
  · rintro ⟨a, ha, b, hb, hab⟩
    exact ⟨f a, List.mem_map_of_mem f ha, f b, List.mem_map_of_mem f hb, hab⟩

/-! ### Claims about the category filter -/

/-- C6: for every store and category, `filter_annotations_by_category` returns
a store whose entry for each file contains exactly the annotations of that
file whose category equals the target, and no file of the result maps to an
empty list: files left with zero matching annotations are absent entirely. -/
theorem filter_annotations_by_category_spec (S : Store) (c : String) :
    (∀ q ∈ filter_annotations_by_category S c, q.2 ≠ []) ∧
    (∀ q ∈ filter_annotations_by_category S c, ∀ a ∈ q.2, a.category = c) ∧
    (∀ fn m, (fn, m) ∈ filter_annotations_by_category S c ↔
      ∃ l, (fn, l) ∈ S ∧ m = l.filter (fun a => a.category == c) ∧ m ≠ []) := by
  refine ⟨?_, ?_, fun fn m => mem_filter_annotations_by_category⟩
  · rintro ⟨fn, m⟩ hq
    obtain ⟨l, _, rfl, hne⟩ := mem_filter_annotations_by_category.mp hq
    exact hne
  · rintro ⟨fn, m⟩ hq a ha
    obtain ⟨l, _, rfl, _⟩ := mem_filter_annotations_by_category.mp hq
    simpa using (List.mem_filter.mp ha).2

/-- C6 witness: the claim instantiated at a concrete two-file store. -/
theorem filter_annotations_by_category_spec_witness :
    (∀ q ∈ filter_annotations_by_category
        [("f1", [mkAnn "f1" 0 1 "c1", mkAnn "f1" 2 3 "c2"]),
         ("f2", [mkAnn "f2" 0 1 "c2"])] "c1", q.2 ≠ []) ∧
    (∀ q ∈ filter_annotations_by_category
        [("f1", [mkAnn "f1" 0 1 "c1", mkAnn "f1" 2 3 "c2"]),
         ("f2", [mkAnn "f2" 0 1 "c2"])] "c1", ∀ a ∈ q.2, a.category = "c1") ∧
    (∀ fn m, (fn, m) ∈ filter_annotations_by_category
        [("f1", [mkAnn "f1" 0 1 "c1", mkAnn "f1" 2 3 "c2"]),
         ("f2", [mkAnn "f2" 0 1 "c2"])] "c1" ↔
      ∃ l, (fn, l) ∈ [("f1", [mkAnn "f1" 0 1 "c1", mkAnn "f1" 2 3 "c2"]),
         ("f2", [mkAnn "f2" 0 1 "c2"])] ∧
        m = l.filter (fun a => a.category == "c1") ∧ m ≠ []) :=
  filter_annotations_by_category_spec
    [("f1", [mkAnn "f1" 0 1 "c1", mkAnn "f1" 2 3 "c2"]),
     ("f2", [mkAnn "f2" 0 1 "c2"])] "c1"

/-- C9: filtering is idempotent: filtering an already-filtered store by the
same category returns the same store. -/
theorem filter_annotations_by_category_idem (S : Store) (c : String) :
    filter_annotations_by_category (filter_annotations_by_category S c) c =
      filter_annotations_by_category S c := by
  apply filter_annotations_by_category_eq_self
  rintro ⟨fn, m⟩ hq
  obtain ⟨l, _, rfl, hne⟩ := mem_filter_annotations_by_category.mp hq
  refine ⟨List.filter_eq_self.mpr ?_, hne⟩
  intro a ha
  exact (List.mem_filter.mp ha).2

/-- C9 witness: idempotence evaluated on a concrete store. -/
theorem filter_annotations_by_category_idem_witness :
    filter_annotations_by_category (filter_annotations_by_category
      [("f1", [mkAnn "f1" 0 1 "c1", mkAnn "f1" 2 3 "c2"])] "c2") "c2" =
      filter_annotations_by_category
        [("f1", [mkAnn "f1" 0 1 "c1", mkAnn "f1" 2 3 "c2"])] "c2" :=
  filter_annotations_by_category_idem
    [("f1", [mkAnn "f1" 0 1 "c1", mkAnn "f1" 2 3 "c2"])] "c2"

/-! ### Claims about the rasterizer precondition -/

/-- C5 counterexample: the empty list does not have exactly one distinct
filename (it has zero), yet `annotations_to_frame_labels` succeeds on it
instead of raising, so the claim as stated is false. -/
theorem annotations_to_frame_labels_empty_ok :
    annotations_to_frame_labels ([] : List Annotation) 3 = Except.ok [0, 0, 0] ∧
    (([] : List Annotation).map (fun a => a.filename)).dedup.length = 0 :=
  ⟨by decide, by decide⟩

/-- C5 (amended): `annotations_to_frame_labels` raises an error exactly when
its input spans more than one distinct filename or more than one distinct
category; every input whose annotations share at most one filename and at
most one category — including the empty input, which the original claim would
require to fail — succeeds without error. -/
theorem annotations_to_frame_labels_error_iff (anns : List Annotation)
    (num_frames : Nat) :
    ((∃ e, annotations_to_frame_labels anns num_frames = Except.error e) ↔
      ((∃ a ∈ anns, ∃ b ∈ anns, a.filename ≠ b.filename) ∨
        (∃ a ∈ anns, ∃ b ∈ anns, a.category ≠ b.category))) ∧
    ((∃ v, annotations_to_frame_labels anns num_frames = Except.ok v) ↔
      ¬((∃ a ∈ anns, ∃ b ∈ anns, a.filename ≠ b.filename) ∨
        (∃ a ∈ anns, ∃ b ∈ anns, a.category ≠ b.category))) := by
  have hF : 1 < (anns.map (fun a => a.filename)).dedup.length ↔
      ∃ a ∈ anns, ∃ b ∈ anns, a.filename ≠ b.filename :=
    one_lt_length_dedup_map_iff
  have hC : 1 < (anns.map (fun a => a.category)).dedup.length ↔
      ∃ a ∈ anns, ∃ b ∈ anns, a.category ≠ b.category :=
    one_lt_length_dedup_map_iff
  unfold annotations_to_frame_labels
  by_cases h1 : 1 < (anns.map (fun a => a.filename)).dedup.length
  · rw [if_pos h1]
    exact ⟨⟨fun _ => Or.inl (hF.mp h1), fun _ => ⟨_, rfl⟩⟩,
      ⟨fun ⟨_, hv⟩ => Except.noConfusion hv,
       fun hn => absurd (Or.inl (hF.mp h1)) hn⟩⟩
  · rw [if_neg h1]
    by_cases h2 : 1 < (anns.map (fun a => a.category)).dedup.length
    · rw [if_pos h2]
      exact ⟨⟨fun _ => Or.inr (hC.mp h2), fun _ => ⟨_, rfl⟩⟩,
        ⟨fun ⟨_, hv⟩ => Except.noConfusion hv,
         fun hn => absurd (Or.inr (hC.mp h2)) hn⟩⟩
    · rw [if_neg h2]
      have hnd : ¬((∃ a ∈ anns, ∃ b ∈ anns, a.filename ≠ b.filename) ∨
          (∃ a ∈ anns, ∃ b ∈ anns, a.category ≠ b.category)) := by
        rintro (hmix | hmix)
        · exact h1 (hF.mpr hmix)
        · exact h2 (hC.mpr hmix)
      exact ⟨⟨fun ⟨_, he⟩ => Except.noConfusion he, fun hd => absurd hd hnd⟩,
        ⟨fun _ => hnd, fun _ => ⟨_, rfl⟩⟩⟩

/-- C5 witness: the amended equivalence evaluated at a mixed-filename input. -/
theorem annotations_to_frame_labels_error_iff_witness :
    ((∃ e, annotations_to_frame_labels [mkAnn "f" 0 1 "c", mkAnn "g" 0 1 "c"] 4
        = Except.error e) ↔
      ((∃ a ∈ [mkAnn "f" 0 1 "c", mkAnn "g" 0 1 "c"],
          ∃ b ∈ [mkAnn "f" 0 1 "c", mkAnn "g" 0 1 "c"], a.filename ≠ b.filename) ∨
        (∃ a ∈ [mkAnn "f" 0 1 "c", mkAnn "g" 0 1 "c"],
          ∃ b ∈ [mkAnn "f" 0 1 "c", mkAnn "g" 0 1 "c"], a.category ≠ b.category))) ∧
    ((∃ v, annotations_to_frame_labels [mkAnn "f" 0 1 "c", mkAnn "g" 0 1 "c"] 4
        = Except.ok v) ↔
      ¬((∃ a ∈ [mkAnn "f" 0 1 "c", mkAnn "g" 0 1 "c"],
          ∃ b ∈ [mkAnn "f" 0 1 "c", mkAnn "g" 0 1 "c"], a.filename ≠ b.filename) ∨
        (∃ a ∈ [mkAnn "f" 0 1 "c", mkAnn "g" 0 1 "c"],
          ∃ b ∈ [mkAnn "f" 0 1 "c", mkAnn "g" 0 1 "c"], a.category ≠ b.category))) :=
  annotations_to_frame_labels_error_iff [mkAnn "f" 0 1 "c", mkAnn "g" 0 1 "c"] 4

/-! ### Claims about the loader -/

theorem addToStore_pos {S : Store} {a : Annotation}
    (h : S.any (fun p => p.1 == a.filename) = true) :
    addToStore S a =
      S.map (fun p => if p.1 == a.filename then (p.1, p.2 ++ [a]) else p) := by
  unfold addToStore; rw [if_pos h]

theorem addToStore_neg {S : Store} {a : Annotation}
    (h : ¬(S.any (fun p => p.1 == a.filename) = true)) :
    addToStore S a = S ++ [(a.filename, [a])] := by
  unfold addToStore; rw [if_neg h]

theorem groupByFilename_spec (l : List Annotation) :
    (∀ fn anns, (fn, anns) ∈ l.foldl addToStore [] →
      anns = l.filter (fun a => a.filename == fn)) ∧
    (∀ a ∈ l, ∃ q ∈ l.foldl addToStore [], q.1 = a.filename) := by
  induction l using List.reverseRecOn with
  | nil => exact ⟨by simp, by simp⟩
  | append_singleton l a ih =>
    obtain ⟨ihmem, ihkeys⟩ := ih
    simp only [List.foldl_append, List.foldl_cons, List.foldl_nil]
    by_cases h : (l.foldl addToStore []).any (fun p => p.1 == a.filename) = true
    · rw [addToStore_pos h]
      constructor
      · intro fn anns hmem
        obtain ⟨p, hp, heq⟩ := List.mem_map.mp hmem
        by_cases hkey : (p.1 == a.filename) = true
        · rw [if_pos hkey] at heq
          simp only [Prod.mk.injEq] at heq
          obtain ⟨rfl, rfl⟩ := heq
          have hfn : a.filename = p.1 := (eq_of_beq hkey).symm
          rw [List.filter_append, ← ihmem p.1 p.2 hp]
          simp [hfn]
        · rw [if_neg hkey] at heq
          subst heq
          have hfn : ¬(a.filename = fn) :=
            fun he => hkey (beq_iff_eq.mpr he.symm)
          rw [List.filter_append, ← ihmem fn anns hp]
          simp [hfn]
      · intro b hb
        rcases List.mem_append.mp hb with hbl | hba
        · obtain ⟨q, hq, hq1⟩ := ihkeys b hbl
          refine ⟨if q.1 == a.filename then (q.1, q.2 ++ [a]) else q,
            List.mem_map_of_mem _ hq, ?_⟩
          by_cases hkey : (q.1 == a.filename) = true
          · rw [if_pos hkey]; exact hq1
          · rw [if_neg hkey]; exact hq1
        · obtain rfl : b = a := by simpa using hba
          obtain ⟨p, hp, hpkey⟩ := List.any_eq_true.mp h
          refine ⟨if p.1 == b.filename then (p.1, p.2 ++ [b]) else p,
            List.mem_map_of_mem _ hp, ?_⟩
          rw [if_pos hpkey]
          exact eq_of_beq hpkey
    · rw [addToStore_neg h]
      have hnotin : ∀ q ∈ l.foldl addToStore [], ¬(q.1 = a.filename) := by
        intro q hq he
        exact h (List.any_eq_true.mpr ⟨q, hq, beq_iff_eq.mpr he⟩)
      have hlnone : l.filter (fun x => x.filename == a.filename) = [] := by
        rw [List.filter_eq_nil_iff]
        intro b hb hbeq
        obtain ⟨q, hq, hq1⟩ := ihkeys b hb
        exact hnotin q hq (hq1.trans (eq_of_beq hbeq))
      constructor
      · intro fn anns hmem
        rcases List.mem_append.mp hmem with hG | hnew
        · have hfn : ¬(a.filename = fn) :=
            fun he => hnotin (fn, anns) hG he.symm
          rw [List.filter_append, ← ihmem fn anns hG]
          simp [hfn]
        · obtain ⟨rfl, rfl⟩ : a.filename = fn ∧ [a] = anns := by
            simpa [eq_comm] using hnew
          rw [List.filter_append, hlnone]
          simp
      · intro b hb
        rcases List.mem_append.mp hb with hbl | hba
        · obtain ⟨q, hq, hq1⟩ := ihkeys b hbl
          exact ⟨q, List.mem_append_left _ hq, hq1⟩
        · obtain rfl : b = a := by simpa using hba
          exact ⟨(b.filename, [b]), List.mem_append_right _ (by simp), rfl⟩

/-- C8: with a category filter, the loader fails with an empty-result error
precisely when the category filter applied to the grouped store yields zero
files; otherwise it returns the category-filtered grouped store. Grouping
preserves per-file insertion order: each file's entry of the grouped store is
the subsequence of the flat input with that filename, in input order. -/
theorem load_annotations_json_spec (l : List Annotation) (c : String) :
    ((∃ e, load_annotations_json l (some c) = Except.error e) ↔
      filter_annotations_by_category (l.foldl addToStore []) c = []) ∧
    (∀ S', load_annotations_json l (some c) = Except.ok S' →
      S' = filter_annotations_by_category (l.foldl addToStore []) c) ∧
    (∀ fn anns, (fn, anns) ∈ l.foldl addToStore [] →
      anns = l.filter (fun a => a.filename == fn)) ∧
    (∀ S', load_annotations_json l (some c) = Except.ok S' →
      ∀ q ∈ S', q.2 = (l.filter (fun a => a.filename == q.1)).filter
        (fun a => a.category == c)) := by
  have hgroup := groupByFilename_spec l
  have hload : load_annotations_json l (some c) =
      if (filter_annotations_by_category (l.foldl addToStore []) c).isEmpty
      then Except.error "No annotations found with category."
      else Except.ok (filter_annotations_by_category (l.foldl addToStore []) c) :=
    rfl
  by_cases hf :
      (filter_annotations_by_category (l.foldl addToStore []) c).isEmpty = true
  · rw [if_pos hf] at hload
    refine ⟨⟨fun _ => List.isEmpty_iff.mp hf, fun _ => ⟨_, hload⟩⟩,
      ?_, hgroup.1, ?_⟩
    · intro S' hS'
      rw [hload] at hS'
      exact Except.noConfusion hS'
    · intro S' hS'
      rw [hload] at hS'
      exact Except.noConfusion hS'
  · rw [if_neg hf] at hload
    have hne : filter_annotations_by_category (l.foldl addToStore []) c ≠ [] :=
      fun hnil => hf (List.isEmpty_iff.mpr hnil)
    refine ⟨⟨?_, fun hnil => absurd hnil hne⟩, ?_, hgroup.1, ?_⟩
    · rintro ⟨e, he⟩
      rw [hload] at he
      exact Except.noConfusion he
    · intro S' hS'
      rw [hload] at hS'
      simp only [Except.ok.injEq] at hS'
      exact hS'.symm
    · intro S' hS' q hq
      rw [hload] at hS'
      simp only [Except.ok.injEq] at hS'
      subst hS'
      rcases q with ⟨fn, m⟩
      obtain ⟨lst, hlst, rfl, _⟩ := mem_filter_annotations_by_category.mp hq
      rw [← hgroup.1 fn lst hlst]

/-- C8 witness: the loader claim evaluated at a concrete two-file input. -/
theorem load_annotations_json_spec_witness :
    ((∃ e, load_annotations_json [mkAnn "f" 0 1 "a", mkAnn "g" 0 2 "b"] (some "a")
        = Except.error e) ↔
      filter_annotations_by_category
        ([mkAnn "f" 0 1 "a", mkAnn "g" 0 2 "b"].foldl addToStore []) "a" = []) ∧
    (∀ S', load_annotations_json [mkAnn "f" 0 1 "a", mkAnn "g" 0 2 "b"] (some "a")
        = Except.ok S' →
      S' = filter_annotations_by_category
        ([mkAnn "f" 0 1 "a", mkAnn "g" 0 2 "b"].foldl addToStore []) "a") ∧
    (∀ fn anns, (fn, anns) ∈ [mkAnn "f" 0 1 "a", mkAnn "g" 0 2 "b"].foldl addToStore [] →
      anns = [mkAnn "f" 0 1 "a", mkAnn "g" 0 2 "b"].filter
        (fun a => a.filename == fn)) ∧
    (∀ S', load_annotations_json [mkAnn "f" 0 1 "a", mkAnn "g" 0 2 "b"] (some "a")
        = Except.ok S' →
      ∀ q ∈ S', q.2 = ([mkAnn "f" 0 1 "a", mkAnn "g" 0 2 "b"].filter
        (fun a => a.filename == q.1)).filter (fun a => a.category == "a")) :=
  load_annotations_json_spec [mkAnn "f" 0 1 "a", mkAnn "g" 0 2 "b"] "a"

/-! ### Rasterizer lemmas -/

theorem getD_replicate_zero (n i : Nat) :
    (List.replicate n (0 : Nat)).getD i 0 = 0 := by
  rcases Nat.lt_or_ge i n with h | h
  · rw [List.getD_eq_getElem _ _ (by simpa using h)]
    simp
  · rw [List.getD_eq_default _ _ (by simpa using h)]

theorem length_setSlice (v : List Nat) (s e : Nat) :
    (setSlice v s e).length = v.length := by
  unfold setSlice; exact List.length_mapIdx

theorem getD_setSlice {v : List Nat} {i : Nat} (h : i < v.length) (s e : Nat) :
    (setSlice v s e).getD i 0 = if s ≤ i ∧ i ≤ e then 1 else v.getD i 0 := by
  have h2 : i < (setSlice v s e).length := by rw [length_setSlice]; exact h
  rw [List.getD_eq_getElem _ _ h2, List.getD_eq_getElem _ _ h]
  unfold setSlice
  rw [List.getElem_mapIdx]

theorem length_rasterFold (anns : List Annotation) (v : List Nat) :
    (anns.foldl (fun v a => setSlice v a.start_frame a.end_frame) v).length =
      v.length := by
  induction anns generalizing v with
  | nil => rfl
  | cons a t ih => rw [List.foldl_cons, ih, length_setSlice]

theorem frameCovered_cons {a : Annotation} {t : List Annotation} {i : Nat} :
    frameCovered (a :: t) i ↔
      ((a.start_frame ≤ i ∧ i ≤ a.end_frame) ∨ frameCovered t i) := by
  unfold frameCovered
  constructor
  · rintro ⟨x, hx, hxc⟩
    rcases List.mem_cons.mp hx with rfl | hxt
    · exact Or.inl hxc
    · exact Or.inr ⟨x, hxt, hxc⟩
  · rintro (hxc | ⟨x, hxt, hxc⟩)
    · exact ⟨a, List.mem_cons_self a t, hxc⟩
    · exact ⟨x, List.mem_cons_of_mem a hxt, hxc⟩

theorem getD_rasterFold (anns : List Annotation) (v : List Nat) (i : Nat)
    (h : i < v.length) :
    (anns.foldl (fun v a => setSlice v a.start_frame a.end_frame) v).getD i 0 =
      if frameCovered anns i then 1 else v.getD i 0 := by
  induction anns generalizing v with
  | nil =>
    have : ¬frameCovered [] i := by rintro ⟨x, hx, _⟩; exact List.not_mem_nil x hx
    simp [this]
  | cons a t ih =>
    rw [List.foldl_cons]
    have h2 : i < (setSlice v a.start_frame a.end_frame).length := by
      rw [length_setSlice]; exact h
    rw [ih _ h2, getD_setSlice h]
    by_cases hcov : frameCovered t i
    · simp [hcov, frameCovered_cons]
    · by_cases ha : a.start_frame ≤ i ∧ i ≤ a.end_frame
      · simp [hcov, ha, frameCovered_cons]
      · simp [hcov, ha, frameCovered_cons]

theorem annotations_to_frame_labels_ok {anns : List Annotation} {n : Nat}
    {v : List Nat} (h : annotations_to_frame_labels anns n = Except.ok v) :
    v = anns.foldl (fun v a => setSlice v a.start_frame a.end_frame)
      (List.replicate n 0) := by
  unfold annotations_to_frame_labels at h
  by_cases h1 : 1 < (anns.map (fun a => a.filename)).dedup.length
  · rw [if_pos h1] at h; exact Except.noConfusion h
  · rw [if_neg h1] at h
    by_cases h2 : 1 < (anns.map (fun a => a.category)).dedup.length
    · rw [if_pos h2] at h; exact Except.noConfusion h
    · rw [if_neg h2] at h
      simp only [Except.ok.injEq] at h
      exact h.symm

theorem not_one_lt_dedup_map {α β : Type} [DecidableEq β] {l : List α}
    {f : α → β} (h : ∀ a ∈ l, ∀ b ∈ l, f a = f b) :
    ¬(1 < (l.map f).dedup.length) := by
  rw [not_lt, length_dedup_le_one_iff]
  intro x hx y hy
  obtain ⟨a, ha, rfl⟩ := List.mem_map.mp hx
  obtain ⟨b, hb, rfl⟩ := List.mem_map.mp hy
  exact h a ha b hb

theorem annotations_to_frame_labels_ok_of_uniform {anns : List Annotation}
    {n : Nat} (hf : ∀ a ∈ anns, ∀ b ∈ anns, a.filename = b.filename)
    (hc : ∀ a ∈ anns, ∀ b ∈ anns, a.category = b.category) :
    annotations_to_frame_labels anns n =
      Except.ok (anns.foldl (fun v a => setSlice v a.start_frame a.end_frame)
        (List.replicate n 0)) := by
  unfold annotations_to_frame_labels
  rw [if_neg (not_one_lt_dedup_map hf), if_neg (not_one_lt_dedup_map hc)]

theorem list_eq_of_getD {v w : List Nat} (hlen : v.length = w.length)
    (h : ∀ i, i < v.length → v.getD i 0 = w.getD i 0) : v = w := by
  apply List.ext_getElem hlen
  intro i h1 h2
  have hi := h i h1
  rwa [List.getD_eq_getElem _ _ h1, List.getD_eq_getElem _ _ h2] at hi

/-- C3: when the rasterizer's single-filename and single-category checks pass,
the result is a binary vector of length `num_frames` whose index `i` is 1
exactly when `i` lies in the inclusive span of at least one input annotation
(overlaps OR together); and the documented example holds. -/
theorem annotations_to_frame_labels_spec (anns : List Annotation) (n : Nat)
    (v : List Nat) (h : annotations_to_frame_labels anns n = Except.ok v) :
    (v.length = n ∧
      ∀ i, i < n →
        ((v.getD i 0 = 1 ↔ ∃ a ∈ anns, a.start_frame ≤ i ∧ i ≤ a.end_frame) ∧
          (v.getD i 0 = 0 ∨ v.getD i 0 = 1))) ∧
    annotations_to_frame_labels [mkAnn "f" 2 4 "c"] 6 =
      Except.ok [0, 0, 1, 1, 1, 0] := by
  refine ⟨?_, by decide⟩
  obtain rfl := annotations_to_frame_labels_ok h
  refine ⟨by rw [length_rasterFold, List.length_replicate], ?_⟩
  intro i hi
  have hrepl : i < (List.replicate n (0 : Nat)).length := by
    rw [List.length_replicate]; exact hi
  rw [getD_rasterFold _ _ _ hrepl, getD_replicate_zero]
  by_cases hcov : frameCovered anns i
  · rw [if_pos hcov]
    exact ⟨⟨fun _ => hcov, fun _ => rfl⟩, Or.inr rfl⟩
  · rw [if_neg hcov]
    exact ⟨⟨fun h1 => absurd h1 (by decide), fun hex => absurd hex hcov⟩,
      Or.inl rfl⟩

/-- C3 witness: the claim applied to the documented single-annotation input. -/
theorem annotations_to_frame_labels_spec_witness :
    annotations_to_frame_labels [mkAnn "f" 2 4 "c"] 6 =
        Except.ok [0, 0, 1, 1, 1, 0] ∧
    ((([0, 0, 1, 1, 1, 0] : List Nat).length = 6 ∧
      ∀ i, i < 6 →
        ((([0, 0, 1, 1, 1, 0] : List Nat).getD i 0 = 1 ↔
            ∃ a ∈ [mkAnn "f" 2 4 "c"], a.start_frame ≤ i ∧ i ≤ a.end_frame) ∧
          (([0, 0, 1, 1, 1, 0] : List Nat).getD i 0 = 0 ∨
            ([0, 0, 1, 1, 1, 0] : List Nat).getD i 0 = 1))) ∧
      annotations_to_frame_labels [mkAnn "f" 2 4 "c"] 6 =
        Except.ok [0, 0, 1, 1, 1, 0]) :=
  ⟨by decide,
    annotations_to_frame_labels_spec [mkAnn "f" 2 4 "c"] 6 [0, 0, 1, 1, 1, 0]
      (by decide)⟩

/-- C10: for inputs passing the checks whose annotations all start inside the
vector, annotations with `end_frame` past the vector are silently clipped:
the call succeeds, the result has length exactly `num_frames`, the marked
frames of each annotation are exactly `[start_frame, min (end_frame) (num_frames - 1)]`,
and clipping the annotations in the input beforehand yields the identical
output (out-of-range frames have no effect). -/
theorem annotations_to_frame_labels_clip (anns : List Annotation) (n : Nat)
    (hf : ∀ a ∈ anns, ∀ b ∈ anns, a.filename = b.filename)
    (hc : ∀ a ∈ anns, ∀ b ∈ anns, a.category = b.category)
    (_hs : ∀ a ∈ anns, a.start_frame < n) :
    ∃ v, annotations_to_frame_labels anns n = Except.ok v ∧
      v.length = n ∧
      (∀ i, i < n → (v.getD i 0 = 1 ↔
        ∃ a ∈ anns, a.start_frame ≤ i ∧ i ≤ min a.end_frame (n - 1))) ∧
      annotations_to_frame_labels
        (anns.map (fun a => { a with end_frame := min a.end_frame (n - 1) })) n =
        Except.ok v := by
  have hcover : ∀ i, i < n →
      (frameCovered anns i ↔
        ∃ a ∈ anns, a.start_frame ≤ i ∧ i ≤ min a.end_frame (n - 1)) := by
    intro i hi
    unfold frameCovered
    constructor
    · rintro ⟨a, ha, h1, h2⟩
      exact ⟨a, ha, h1, le_min h2 (by omega)⟩
    · rintro ⟨a, ha, h1, h2⟩
      exact ⟨a, ha, h1, le_trans h2 (min_le_left _ _)⟩
  refine ⟨anns.foldl (fun v a => setSlice v a.start_frame a.end_frame)
      (List.replicate n 0),
    annotations_to_frame_labels_ok_of_uniform hf hc,
    by rw [length_rasterFold, List.length_replicate], ?_, ?_⟩
  · intro i hi
    have hrepl : i < (List.replicate n (0 : Nat)).length := by
      rw [List.length_replicate]; exact hi
    rw [getD_rasterFold _ _ _ hrepl, getD_replicate_zero]
    by_cases hcov : frameCovered anns i
    · rw [if_pos hcov]
      exact ⟨fun _ => (hcover i hi).mp hcov, fun _ => rfl⟩
    · rw [if_neg hcov]
      exact ⟨fun h1 => absurd h1 (by decide),
        fun hex => absurd ((hcover i hi).mpr hex) hcov⟩
  · have hf2 : ∀ x ∈ anns.map (fun a =>
        { a with end_frame := min a.end_frame (n - 1) }), ∀ y ∈ anns.map (fun a =>
        { a with end_frame := min a.end_frame (n - 1) }), x.filename = y.filename := by
      intro x hx y hy
      obtain ⟨a, ha, rfl⟩ := List.mem_map.mp hx
      obtain ⟨b, hb, rfl⟩ := List.mem_map.mp hy
      exact hf a ha b hb
    have hc2 : ∀ x ∈ anns.map (fun a =>
        { a with end_frame := min a.end_frame (n - 1) }), ∀ y ∈ anns.map (fun a =>
        { a with end_frame := min a.end_frame (n - 1) }), x.category = y.category := by
      intro x hx y hy
      obtain ⟨a, ha, rfl⟩ := List.mem_map.mp hx
      obtain ⟨b, hb, rfl⟩ := List.mem_map.mp hy
      exact hc a ha b hb
    rw [annotations_to_frame_labels_ok_of_uniform hf2 hc2]
    congr 1
    apply list_eq_of_getD
    · rw [length_rasterFold, length_rasterFold]
    · intro i hilen
      have hi : i < n := by
        rwa [length_rasterFold, List.length_replicate] at hilen
      have hrepl : i < (List.replicate n (0 : Nat)).length := by
        rw [List.length_replicate]; exact hi
      rw [getD_rasterFold _ _ _ hrepl, getD_rasterFold _ _ _ hrepl]
      have hiff : frameCovered (anns.map (fun a =>
          { a with end_frame := min a.end_frame (n - 1) })) i ↔
          frameCovered anns i := by
        rw [hcover i hi]
        unfold frameCovered
        constructor
        · rintro ⟨x, hx, h1, h2⟩
          obtain ⟨a, ha, rfl⟩ := List.mem_map.mp hx
          exact ⟨a, ha, h1, h2⟩
        · rintro ⟨a, ha, h1, h2⟩
          exact ⟨{ a with end_frame := min a.end_frame (n - 1) },
            List.mem_map_of_mem _ ha, h1, h2⟩
      simp only [hiff]

/-- C10 witness: clipping claim applied to an annotation ending past the
vector (start 2, end 9, vector length 6). -/
theorem annotations_to_frame_labels_clip_witness :
    ((∀ a ∈ [mkAnn "f" 2 9 "c"], ∀ b ∈ [mkAnn "f" 2 9 "c"],
        a.filename = b.filename) ∧
      (∀ a ∈ [mkAnn "f" 2 9 "c"], ∀ b ∈ [mkAnn "f" 2 9 "c"],
        a.category = b.category) ∧
      (∀ a ∈ [mkAnn "f" 2 9 "c"], a.start_frame < 6)) ∧
    (∃ v, annotations_to_frame_labels [mkAnn "f" 2 9 "c"] 6 = Except.ok v ∧
      v.length = 6 ∧
      (∀ i, i < 6 → (v.getD i 0 = 1 ↔
        ∃ a ∈ [mkAnn "f" 2 9 "c"], a.start_frame ≤ i ∧
          i ≤ min a.end_frame (6 - 1))) ∧
      annotations_to_frame_labels
        ([mkAnn "f" 2 9 "c"].map (fun a =>
          { a with end_frame := min a.end_frame (6 - 1) })) 6 =
        Except.ok v) :=
  ⟨⟨by decide, by decide, by decide⟩,
    annotations_to_frame_labels_clip [mkAnn "f" 2 9 "c"] 6
      (by decide) (by decide) (by decide)⟩

/-! ### Background-gap lemmas -/

theorem sortAnnotations_perm (anns : List Annotation) :
    (sortAnnotations anns).Perm anns :=
  List.perm_insertionSort annLe anns

theorem sortAnnotations_sorted (anns : List Annotation) :
    List.Sorted annLe (sortAnnotations anns) :=
  List.sorted_insertionSort annLe anns

theorem sortAnnotations_eq_nil {anns : List Annotation}
    (h : sortAnnotations anns = []) : anns = [] := by
  have hp := (sortAnnotations_perm anns).length_eq
  rw [h] at hp
  exact List.length_eq_zero.mp hp.symm

theorem fileGaps_eq {anns : List Annotation} (h : anns ≠ []) :
    fileGaps anns = some (leadingAndAdjacentGaps anns) := by
  unfold fileGaps leadingAndAdjacentGaps
  cases hs : sortAnnotations anns with
  | nil => exact absurd (sortAnnotations_eq_nil hs) h
  | cons a rest => rfl

theorem leadingAndAdjacentGaps_ne_nil {anns : List Annotation} (h : anns ≠ []) :
    leadingAndAdjacentGaps anns ≠ [] := by
  unfold leadingAndAdjacentGaps
  cases hs : sortAnnotations anns with
  | nil => exact absurd (sortAnnotations_eq_nil hs) h
  | cons a rest => simp

theorem allGaps_ne_nil {S : Store} (hS : S ≠ [])
    (hfiles : ∀ p ∈ S, p.2 ≠ []) : allGaps S ≠ [] := by
  cases S with
  | nil => exact absurd rfl hS
  | cons p rest =>
    unfold allGaps
    rw [List.flatMap_cons]
    intro hnil
    exact leadingAndAdjacentGaps_ne_nil (hfiles p (List.mem_cons_self p rest))
      (List.append_eq_nil.mp hnil).1

theorem foldl_min_bounds (l : List Int) :
    ∀ acc : WithTop Int,
      (l.foldl (fun m g => min m ((g : Int) : WithTop Int)) acc) ≤ acc ∧
      (∀ g ∈ l, (l.foldl (fun m g => min m ((g : Int) : WithTop Int)) acc) ≤
        ((g : Int) : WithTop Int)) ∧
      ((l.foldl (fun m g => min m ((g : Int) : WithTop Int)) acc) = acc ∨
        ∃ m ∈ l, (l.foldl (fun m g => min m ((g : Int) : WithTop Int)) acc) =
          ((m : Int) : WithTop Int)) := by
  induction l with
  | nil =>
    intro acc
    exact ⟨le_refl _, by simp, Or.inl rfl⟩
  | cons g t ih =>
    intro acc
    rw [List.foldl_cons]
    obtain ⟨h1, h2, h3⟩ := ih (min acc ((g : Int) : WithTop Int))
    refine ⟨le_trans h1 (min_le_left _ _), ?_, ?_⟩
    · intro x hx
      rcases List.mem_cons.mp hx with rfl | hxt
      · exact le_trans h1 (min_le_right _ _)
      · exact h2 x hxt
    · rcases h3 with heq | ⟨m, hm, heq⟩
      · rcases min_choice acc ((g : Int) : WithTop Int) with hmin | hmin
        · exact Or.inl (heq.trans hmin)
        · exact Or.inr ⟨g, List.mem_cons_self g t, heq.trans hmin⟩
      · exact Or.inr ⟨m, List.mem_cons_of_mem g hm, heq⟩

theorem foldlM_min_eq {S : Store} (hfiles : ∀ p ∈ S, p.2 ≠ []) :
    ∀ acc : WithTop Int,
      S.foldlM (fun acc p => (fileGaps p.2).map (fun gaps =>
        gaps.foldl (fun m g => min m ((g : Int) : WithTop Int)) acc)) acc =
      some ((S.flatMap (fun p => leadingAndAdjacentGaps p.2)).foldl
        (fun m g => min m ((g : Int) : WithTop Int)) acc) := by
  induction S with
  | nil => intro acc; rfl
  | cons p rest ih =>
    intro acc
    have hp := hfiles p (List.mem_cons_self p rest)
    have ih2 := ih (fun q hq => hfiles q (List.mem_cons_of_mem p hq))
    rw [List.foldlM_cons, fileGaps_eq hp]
    simp only [Option.map_some', Option.bind_eq_bind, Option.some_bind]
    rw [ih2, List.flatMap_cons, List.foldl_append]

theorem compute_min_background_duration_eq {S : Store}
    (hfiles : ∀ p ∈ S, p.2 ≠ []) :
    compute_min_background_duration S =
      some ((allGaps S).foldl (fun m g => min m ((g : Int) : WithTop Int)) ⊤) :=
  foldlM_min_eq hfiles ⊤

/-- C2: for a non-empty store in which every file has at least one annotation,
`compute_min_background_duration` returns the global minimum, over all files,
of the file's leading gap (the `start_frame` of the first annotation after
sorting by `(start_frame, end_frame)`) and the unclamped adjacent differences
`next.start_frame - previous.end_frame` of the sorted order; a single
annotation contributes only its leading gap; and the documented example with
annotations `(3,4)` and `(5,6)` yields 1. -/
theorem compute_min_background_duration_spec (S : Store) (hS : S ≠ [])
    (hfiles : ∀ p ∈ S, p.2 ≠ []) :
    (∃ m : Int, compute_min_background_duration S = some ((m : WithTop Int)) ∧
      m ∈ allGaps S ∧ ∀ g ∈ allGaps S, m ≤ g) ∧
    (∀ p ∈ S, (sortAnnotations p.2).Perm p.2 ∧
      List.Sorted annLe (sortAnnotations p.2)) ∧
    (∀ a : Annotation, leadingAndAdjacentGaps [a] = [(a.start_frame : Int)]) ∧
    compute_min_background_duration
      [("a", [mkAnn "a" 3 4 "c", mkAnn "a" 5 6 "c"])] =
      some ((1 : Int) : WithTop Int) := by
  refine ⟨?_, fun p _ => ⟨sortAnnotations_perm p.2, sortAnnotations_sorted p.2⟩,
    fun a => rfl, by decide⟩
  have heq := compute_min_background_duration_eq hfiles
  obtain ⟨hle_top, hlb, hcases⟩ := foldl_min_bounds (allGaps S) ⊤
  rcases hcases with htop | ⟨m, hm, hcoe⟩
  · exfalso
    obtain ⟨g, hg⟩ := List.exists_mem_of_ne_nil _ (allGaps_ne_nil hS hfiles)
    have := hlb g hg
    rw [htop] at this
    exact WithTop.not_top_le_coe _ this
  · refine ⟨m, by rw [heq, hcoe], hm, ?_⟩
    intro g hg
    have := hlb g hg
    rw [hcoe] at this
    exact WithTop.coe_le_coe.mp this

/-- C2 witness: the claim applied to the documented single-file store. -/
theorem compute_min_background_duration_spec_witness :
    (([("a", [mkAnn "a" 3 4 "c", mkAnn "a" 5 6 "c"])] : Store) ≠ [] ∧
      ∀ p ∈ ([("a", [mkAnn "a" 3 4 "c", mkAnn "a" 5 6 "c"])] : Store),
        p.2 ≠ []) ∧
    ((∃ m : Int, compute_min_background_duration
        [("a", [mkAnn "a" 3 4 "c", mkAnn "a" 5 6 "c"])] =
          some ((m : WithTop Int)) ∧
      m ∈ allGaps [("a", [mkAnn "a" 3 4 "c", mkAnn "a" 5 6 "c"])] ∧
      ∀ g ∈ allGaps [("a", [mkAnn "a" 3 4 "c", mkAnn "a" 5 6 "c"])], m ≤ g) ∧
    (∀ p ∈ ([("a", [mkAnn "a" 3 4 "c", mkAnn "a" 5 6 "c"])] : Store),
      (sortAnnotations p.2).Perm p.2 ∧
      List.Sorted annLe (sortAnnotations p.2)) ∧
    (∀ a : Annotation, leadingAndAdjacentGaps [a] = [(a.start_frame : Int)]) ∧
    compute_min_background_duration
      [("a", [mkAnn "a" 3 4 "c", mkAnn "a" 5 6 "c"])] =
      some ((1 : Int) : WithTop Int)) :=
  ⟨⟨by decide, by decide⟩,
    compute_min_background_duration_spec
      [("a", [mkAnn "a" 3 4 "c", mkAnn "a" 5 6 "c"])] (by decide) (by decide)⟩

/-! ### Duration statistics -/

/-- C7: for a store with at least one annotation, `compute_duration_mean_std`
returns the pair of the arithmetic mean and the population standard deviation
(square root of the mean squared deviation) of the duration sequence, the
flat list of `end_frame - start_frame + 1` over all files in
file-then-annotation order as produced by `get_durations`. -/
theorem compute_duration_mean_std_spec (S : Store)
    (_h : S.flatMap (fun p => p.2.map
      (fun a => (a.end_frame : Int) - (a.start_frame : Int) + 1)) ≠ []) :
    get_durations S = S.flatMap (fun p => p.2.map
      (fun a => (a.end_frame : Int) - (a.start_frame : Int) + 1)) ∧
    (compute_duration_mean_std S).1 =
      ((get_durations S).sum : Rat) / ((get_durations S).length : Rat) ∧
    0 ≤ (compute_duration_mean_std S).2 ∧
    ((compute_duration_mean_std S).2) ^ 2 =
      ((((get_durations S).map (fun (d : Int) => ((d : Rat) -
          ((get_durations S).sum : Rat) / ((get_durations S).length : Rat)) ^ 2)).sum /
        ((get_durations S).length : Rat) : Rat) : Real) := by
  refine ⟨rfl, rfl, Real.sqrt_nonneg _, ?_⟩
  have hvar : 0 ≤ npVar (get_durations S) := by
    unfold npVar
    apply div_nonneg
    · apply List.sum_nonneg
      intro x hx
      obtain ⟨d, _, rfl⟩ := List.mem_map.mp hx
      exact sq_nonneg _
    · exact Nat.cast_nonneg _
  have h2 : ((compute_duration_mean_std S).2) ^ 2 =
      ((npVar (get_durations S) : Rat) : Real) := by
    show Real.sqrt ((npVar (get_durations S) : Rat) : Real) ^ 2 =
      ((npVar (get_durations S) : Rat) : Real)
    exact Real.sq_sqrt (by exact_mod_cast hvar)
  rw [h2]
  unfold npVar npMean
  rfl

/-- C7 witness: the claim applied to a store holding one annotation of
duration 2. -/
theorem compute_duration_mean_std_spec_witness :
    (([("f", [mkAnn "f" 0 1 "c"])] : Store).flatMap (fun p => p.2.map
      (fun a => (a.end_frame : Int) - (a.start_frame : Int) + 1)) ≠ []) ∧
    (get_durations [("f", [mkAnn "f" 0 1 "c"])] =
      ([("f", [mkAnn "f" 0 1 "c"])] : Store).flatMap (fun p => p.2.map
        (fun a => (a.end_frame : Int) - (a.start_frame : Int) + 1)) ∧
    (compute_duration_mean_std [("f", [mkAnn "f" 0 1 "c"])]).1 =
      ((get_durations [("f", [mkAnn "f" 0 1 "c"])]).sum : Rat) /
        ((get_durations [("f", [mkAnn "f" 0 1 "c"])]).length : Rat) ∧
    0 ≤ (compute_duration_mean_std [("f", [mkAnn "f" 0 1 "c"])]).2 ∧
    ((compute_duration_mean_std [("f", [mkAnn "f" 0 1 "c"])]).2) ^ 2 =
      ((((get_durations [("f", [mkAnn "f" 0 1 "c"])]).map (fun (d : Int) => ((d : Rat) -
          ((get_durations [("f", [mkAnn "f" 0 1 "c"])]).sum : Rat) /
            ((get_durations [("f", [mkAnn "f" 0 1 "c"])]).length : Rat)) ^ 2)).sum /
        ((get_durations [("f", [mkAnn "f" 0 1 "c"])]).length : Rat) : Rat) : Real)) :=
  ⟨by decide, compute_duration_mean_std_spec [("f", [mkAnn "f" 0 1 "c"])] (by decide)⟩

/-! ### Overlap-counter lemmas -/

theorem mem_frames_to_consider {anns : List Annotation} {f : Nat} :
    f ∈ frames_to_consider anns ↔
      ∃ a ∈ anns, f = a.start_frame ∨ f = a.end_frame := by
  unfold frames_to_consider
  rw [List.mem_insertionSort, List.mem_dedup, List.mem_append]
  constructor
  · rintro (hx | hx) <;> obtain ⟨a, ha, rfl⟩ := List.mem_map.mp hx
    · exact ⟨a, ha, Or.inl rfl⟩
    · exact ⟨a, ha, Or.inr rfl⟩
  · rintro ⟨a, ha, rfl | rfl⟩
    · exact Or.inl (List.mem_map_of_mem _ ha)
    · exact Or.inr (List.mem_map_of_mem _ ha)

theorem frames_to_consider_nodup (anns : List Annotation) :
    (frames_to_consider anns).Nodup := by
  unfold frames_to_consider
  exact (List.perm_insertionSort _ _).nodup_iff.mpr (List.nodup_dedup _)

theorem frames_to_consider_sorted (anns : List Annotation) :
    List.Sorted (· ≤ ·) (frames_to_consider anns) :=
  List.sorted_insertionSort _ _

theorem countP_flatMap {α β : Type} (l : List α) (g : α → List β)
    (p : β → Bool) :
    (l.flatMap g).countP p = (l.map (fun x => (g x).countP p)).sum := by
  induction l with
  | nil => rfl
  | cons x t ih =>
    rw [List.flatMap_cons, List.countP_append, List.map_cons, List.sum_cons, ih]

/-- C1: `compute_overlap_counts` implements the documented sweep: per file the
candidate frames are exactly the sorted deduplicated union of the start and
end frames; at each candidate frame the active annotations are those whose
inclusive span contains it; the recorded key is the set of their distinct
categories; the final count of a category set is the raw number of recordings
under it across all files; and the doctest store with `a=(0,2)`, `b=(1,3)`
yields counts `{a}:1`, `{b}:1`, `{a,b}:2`. -/
theorem compute_overlap_counts_spec (S : Store) (cats : Finset String) :
    (compute_overlap_counts S cats =
      (S.map (fun p => (frames_to_consider p.2).countP (fun f =>
        decide (((p.2.filter (fun a =>
          decide (a.start_frame ≤ f ∧ f ≤ a.end_frame))).map
            (fun a => a.category)).toFinset = cats)))).sum) ∧
    (∀ anns : List Annotation,
      (∀ f : Nat, f ∈ frames_to_consider anns ↔
        ∃ a ∈ anns, f = a.start_frame ∨ f = a.end_frame) ∧
      (frames_to_consider anns).Nodup ∧
      List.Sorted (· ≤ ·) (frames_to_consider anns)) ∧
    (∀ a : Annotation, ∀ f : Nat, in_annotation a f = true ↔
      (a.start_frame ≤ f ∧ f ≤ a.end_frame)) ∧
    (compute_overlap_counts
        [("1", [mkAnn "1" 0 2 "a", mkAnn "1" 1 3 "b"])] {"a"} = 1 ∧
      compute_overlap_counts
        [("1", [mkAnn "1" 0 2 "a", mkAnn "1" 1 3 "b"])] {"b"} = 1 ∧
      compute_overlap_counts
        [("1", [mkAnn "1" 0 2 "a", mkAnn "1" 1 3 "b"])]
          ({"a", "b"} : Finset String) = 2) := by
  refine ⟨?_,
    fun anns => ⟨fun f => mem_frames_to_consider, frames_to_consider_nodup anns,
      frames_to_consider_sorted anns⟩,
    ?_, by decide, by decide, by decide⟩
  · unfold compute_overlap_counts overlap_recordings
    rw [countP_flatMap]
    apply congrArg
    apply List.map_congr_left
    intro p _
    rw [List.countP_map]
    apply List.countP_congr
    intro f _
    have hpred : (fun a => in_annotation a f) =
        (fun a => decide (a.start_frame ≤ f ∧ f ≤ a.end_frame)) := by
      funext a
      unfold in_annotation
      exact (Bool.decide_and _ _).symm
    simp only [Function.comp, hpred]
  · intro a f
    unfold in_annotation
    rw [Bool.and_eq_true, decide_eq_true_eq, decide_eq_true_eq]

/-! ### Prior-computation lemmas -/

theorem sum_map_indicator (l : List Nat) (p : Nat → Prop) [DecidablePred p] :
    (l.map (fun i => if p i then (1 : Nat) else 0)).sum =
      l.countP (fun i => decide (p i)) := by
  induction l with
  | nil => rfl
  | cons x t ih =>
    rw [List.map_cons, List.sum_cons, List.countP_cons, ih]
    by_cases hx : p x
    · simp [hx, Nat.add_comm]
    · simp [hx]

theorem rasterFold_eq_indicator (anns : List Annotation) (n : Nat) :
    anns.foldl (fun v a => setSlice v a.start_frame a.end_frame)
      (List.replicate n 0) =
      (List.range n).map (fun i => if frameCovered anns i then 1 else 0) := by
  apply list_eq_of_getD
  · rw [length_rasterFold, List.length_replicate, List.length_map,
      List.length_range]
  · intro i hlen
    have hi : i < n := by rwa [length_rasterFold, List.length_replicate] at hlen
    have hrepl : i < (List.replicate n (0 : Nat)).length := by
      rw [List.length_replicate]; exact hi
    rw [getD_rasterFold _ _ _ hrepl, getD_replicate_zero,
      List.getD_eq_getElem _ _ (by simpa using hi), List.getElem_map,
      List.getElem_range]

theorem sum_rasterFold (anns : List Annotation) (n : Nat) :
    (anns.foldl (fun v a => setSlice v a.start_frame a.end_frame)
      (List.replicate n 0)).sum = coveredCount anns n := by
  rw [rasterFold_eq_indicator]
  exact sum_map_indicator _ _

theorem rasterizeFiles_eq {fc : List (String × Nat)} {c : String} {L : Store}
    (h : ∀ p ∈ L, (fc.lookup p.1).isSome = true ∧
      (∀ a ∈ p.2, a.filename = p.1) ∧ (∀ a ∈ p.2, a.category = c)) :
    rasterizeFiles fc L = some (L.map (fun p =>
      p.2.foldl (fun v a => setSlice v a.start_frame a.end_frame)
        (List.replicate ((fc.lookup p.1).getD 0) 0))) := by
  induction L with
  | nil => rfl
  | cons p rest ih =>
    obtain ⟨hsome, hfn, hcat⟩ := h p (List.mem_cons_self p rest)
    obtain ⟨nn, hnn⟩ := Option.isSome_iff_exists.mp hsome
    have ihr := ih (fun q hq => h q (List.mem_cons_of_mem p hq))
    have hok : annotations_to_frame_labels p.2 nn =
        Except.ok (p.2.foldl (fun v a => setSlice v a.start_frame a.end_frame)
          (List.replicate nn 0)) :=
      annotations_to_frame_labels_ok_of_uniform
        (fun a ha b hb => (hfn a ha).trans (hfn b hb).symm)
        (fun a ha b hb => (hcat a ha).trans (hcat b hb).symm)
    unfold rasterizeFiles
    rw [hnn]
    simp only [Option.bind_eq_bind, Option.some_bind, hok, Except.toOption,
      ihr, List.map_cons, hnn, Option.getD_some]
    rfl

theorem priorFor_eq {S : Store} {fc : List (String × Nat)} {ntf : Nat}
    {c : String}
    (hwf : ∀ p ∈ S, ∀ a ∈ p.2, a.filename = p.1)
    (hcov : ∀ p ∈ S, (fc.lookup p.1).isSome = true)
    (hntf : ntf ≠ 0) :
    priorFor S fc ntf c = some (NpFloat.val
      (((((filter_annotations_by_category S c).map (fun p =>
        coveredCount p.2 ((fc.lookup p.1).getD 0))).sum : Nat) : Rat) /
        ((ntf : Nat) : Rat))) := by
  have hfilt : ∀ p ∈ filter_annotations_by_category S c,
      (fc.lookup p.1).isSome = true ∧ (∀ a ∈ p.2, a.filename = p.1) ∧
        (∀ a ∈ p.2, a.category = c) := by
    rintro ⟨fn, m⟩ hq
    obtain ⟨l, hl, rfl, _⟩ := mem_filter_annotations_by_category.mp hq
    refine ⟨hcov (fn, l) hl, ?_, ?_⟩
    · intro a ha
      exact hwf (fn, l) hl a (List.mem_of_mem_filter ha)
    · intro a ha
      simpa using (List.mem_filter.mp ha).2
  unfold priorFor
  rw [rasterizeFiles_eq hfilt]
  simp only [Option.bind_eq_bind, Option.some_bind]
  by_cases hL : filter_annotations_by_category S c = []
  · rw [hL]
    simp [hntf]
  · have hmapne : (filter_annotations_by_category S c).map (fun p =>
        p.2.foldl (fun v a => setSlice v a.start_frame a.end_frame)
          (List.replicate ((fc.lookup p.1).getD 0) 0)) ≠ [] := by
      simpa using hL
    rw [if_neg (not_isEmpty_of_ne_nil hmapne)]
    unfold npDivNat
    rw [if_neg hntf]
    have hnum : ((filter_annotations_by_category S c).map (fun p =>
        p.2.foldl (fun v a => setSlice v a.start_frame a.end_frame)
          (List.replicate ((fc.lookup p.1).getD 0) 0))).map (fun v => v.sum) =
        (filter_annotations_by_category S c).map (fun p =>
          coveredCount p.2 ((fc.lookup p.1).getD 0)) := by
      rw [List.map_map]
      apply List.map_congr_left
      intro p _
      simp only [Function.comp]
      exact sum_rasterFold p.2 _
    rw [hnum]

theorem priorsLoop_eq {S : Store} {fc : List (String × Nat)} {ntf : Nat}
    (hwf : ∀ p ∈ S, ∀ a ∈ p.2, a.filename = p.1)
    (hcov : ∀ p ∈ S, (fc.lookup p.1).isSome = true)
    (hntf : ntf ≠ 0) (cl : List String) :
    priorsLoop S fc ntf cl = some (cl.map (fun c => NpFloat.val
      (((((filter_annotations_by_category S c).map (fun p =>
        coveredCount p.2 ((fc.lookup p.1).getD 0))).sum : Nat) : Rat) /
        ((ntf : Nat) : Rat)))) := by
  induction cl with
  | nil => rfl
  | cons c rest ih =>
    unfold priorsLoop
    rw [priorFor_eq hwf hcov hntf]
    simp only [Option.bind_eq_bind, Option.some_bind, ih, List.map_cons]
    rfl

/-- C4 counterexample: the empty frame-count table covers every filename of
the empty store, yet with class list `['a']` the total frame count is 0, the
category filter leaves zero files (so the numerator is the plain Python int
0), and the division raises `ZeroDivisionError` (modelled by `none`) instead
of returning a prior sequence. -/
theorem compute_priors_zero_total_fails :
    compute_priors ([] : Store) ["a"] [] = none ∧
    (([] : List (String × Nat)).map (fun q => q.2)).sum = 0 :=
  ⟨by decide, by decide⟩

/-- C4 (amended): for every store, ordered class list, and frame-count table
covering every filename of the store whose values sum to a nonzero total,
`compute_priors` returns a sequence positionally aligned with the class list
in which the entry of each category is the total number of covered frames
over the files of the category-filtered store, each rasterized against its
frame count, divided by the sum of ALL frame counts; a category with zero
matching files gets prior exactly 0; and the documented example yields
`[0.5, 0.2]`. With a zero total the claimed ratios are not produced: the
counterexample input (empty store, class `['a']`, empty table) raises on the
plain-int division 0/0, while a zero-total store whose class has matching
files — the final conjunct's one zero-frame file annotated `"a"` — makes the
numerator a numpy integer, whose division by zero yields a `nan` entry
instead of an error. -/
theorem compute_priors_spec (S : Store) (class_list : List String)
    (frame_counts : List (String × Nat))
    (hwf : ∀ p ∈ S, ∀ a ∈ p.2, a.filename = p.1)
    (hcov : ∀ p ∈ S, (frame_counts.lookup p.1).isSome = true)
    (htot : (frame_counts.map (fun q => q.2)).sum ≠ 0) :
    ∃ priors, compute_priors S class_list frame_counts = some priors ∧
      priors.length = class_list.length ∧
      (∀ i, i < class_list.length → priors.getD i NpFloat.nan = NpFloat.val
        (((((filter_annotations_by_category S (class_list.getD i "")).map
          (fun p => coveredCount p.2 ((frame_counts.lookup p.1).getD 0))).sum :
            Nat) : Rat) /
          ((((frame_counts.map (fun q => q.2)).sum : Nat) : Rat)))) ∧
      (∀ i, i < class_list.length →
        filter_annotations_by_category S (class_list.getD i "") = [] →
        priors.getD i NpFloat.nan = NpFloat.val 0) ∧
      compute_priors [("f", [mkAnn "f" 0 4 "a", mkAnn "f" 5 6 "b"])] ["a", "b"]
        [("f", 10)] = some [NpFloat.val (1/2), NpFloat.val (1/5)] ∧
      compute_priors [("f", [mkAnn "f" 0 0 "a"])] ["a"] [("f", 0)] =
        some [NpFloat.nan] := by
  have hloop := priorsLoop_eq hwf hcov htot class_list
  have hcp : compute_priors S class_list frame_counts =
      some (class_list.map (fun c => NpFloat.val
        (((((filter_annotations_by_category S c).map (fun p =>
          coveredCount p.2 ((frame_counts.lookup p.1).getD 0))).sum : Nat) : Rat) /
          (((frame_counts.map (fun q => q.2)).sum : Nat) : Rat)))) := by
    unfold compute_priors
    exact hloop
  have hget : ∀ i, i < class_list.length →
      (class_list.map (fun c => NpFloat.val
        (((((filter_annotations_by_category S c).map (fun p =>
          coveredCount p.2 ((frame_counts.lookup p.1).getD 0))).sum : Nat) : Rat) /
          (((frame_counts.map (fun q => q.2)).sum : Nat) : Rat)))).getD i
            NpFloat.nan =
      NpFloat.val
        (((((filter_annotations_by_category S (class_list.getD i "")).map
          (fun p => coveredCount p.2 ((frame_counts.lookup p.1).getD 0))).sum :
            Nat) : Rat) /
          (((frame_counts.map (fun q => q.2)).sum : Nat) : Rat)) := by
    intro i hi
    rw [List.getD_eq_getElem _ _ (by simpa using hi), List.getElem_map,
      List.getD_eq_getElem _ _ hi]
  refine ⟨_, hcp, by rw [List.length_map], hget, ?_, ?_, by decide⟩
  · intro i hi hempty
    rw [hget i hi, hempty]
    simp
  · have hra : rasterizeFiles [("f", 10)]
        (filter_annotations_by_category
          [("f", [mkAnn "f" 0 4 "a", mkAnn "f" 5 6 "b"])] "a") =
        some [[1, 1, 1, 1, 1, 0, 0, 0, 0, 0]] := by decide
    have hrb : rasterizeFiles [("f", 10)]
        (filter_annotations_by_category
          [("f", [mkAnn "f" 0 4 "a", mkAnn "f" 5 6 "b"])] "b") =
        some [[0, 0, 0, 0, 0, 1, 1, 0, 0, 0]] := by decide
    simp [compute_priors, priorsLoop, priorFor, npDivNat, hra, hrb]
    norm_num

/-- C4 witness: the amended claim applied to the documented one-file store
with ten total frames. -/
theorem compute_priors_spec_witness :
    ((∀ p ∈ ([("f", [mkAnn "f" 0 4 "a", mkAnn "f" 5 6 "b"])] : Store),
        ∀ a ∈ p.2, a.filename = p.1) ∧
      (∀ p ∈ ([("f", [mkAnn "f" 0 4 "a", mkAnn "f" 5 6 "b"])] : Store),
        (([("f", 10)] : List (String × Nat)).lookup p.1).isSome = true) ∧
      (([("f", 10)] : List (String × Nat)).map (fun q => q.2)).sum ≠ 0) ∧
    (∃ priors, compute_priors [("f", [mkAnn "f" 0 4 "a", mkAnn "f" 5 6 "b"])]
        ["a", "b"] [("f", 10)] = some priors ∧
      priors.length = (["a", "b"] : List String).length ∧
      (∀ i, i < (["a", "b"] : List String).length →
        priors.getD i NpFloat.nan = NpFloat.val
        (((((filter_annotations_by_category
            [("f", [mkAnn "f" 0 4 "a", mkAnn "f" 5 6 "b"])]
            ((["a", "b"] : List String).getD i "")).map
          (fun p => coveredCount p.2
            ((([("f", 10)] : List (String × Nat)).lookup p.1).getD 0))).sum :
            Nat) : Rat) /
          ((((([("f", 10)] : List (String × Nat)).map (fun q => q.2)).sum :
            Nat) : Rat)))) ∧
      (∀ i, i < (["a", "b"] : List String).length →
        filter_annotations_by_category
          [("f", [mkAnn "f" 0 4 "a", mkAnn "f" 5 6 "b"])]
          ((["a", "b"] : List String).getD i "") = [] →
        priors.getD i NpFloat.nan = NpFloat.val 0) ∧
      compute_priors [("f", [mkAnn "f" 0 4 "a", mkAnn "f" 5 6 "b"])] ["a", "b"]
        [("f", 10)] = some [NpFloat.val (1/2), NpFloat.val (1/5)] ∧
      compute_priors [("f", [mkAnn "f" 0 0 "a"])] ["a"] [("f", 0)] =
        some [NpFloat.nan]) :=
  ⟨⟨by decide, by decide, by decide⟩,
    compute_priors_spec [("f", [mkAnn "f" 0 4 "a", mkAnn "f" 5 6 "b"])]
      ["a", "b"] [("f", 10)] (by decide) (by decide) (by decide)⟩
